import Mathlib

/-!
Shallow embedding of `rllib/utils/spaces/simplex.py` (classes `Repeated` and
`Simplex`) and `rllib/models/list_batch.py` (class `ListBatch`).

Modelling conventions:
* numpy arrays are `NDArray`: a shape (list of dimension sizes) together with
  the row-major flat data, with exact rationals `ℚ` standing for the numeric
  values (so floating-point rounding is abstracted away; "within tolerance"
  statements therefore hold with exact arithmetic, and `astype(dtype)` is the
  identity on the exact values).
* `np.random.RandomState` is modelled as a deterministic pseudo-random
  generator with an explicit state word; the particular update function is an
  abstract stand-in for the Mersenne twister.  All claims proved below depend
  only on the generator being a deterministic function of its state, never on
  details of its distribution.
* Python exceptions are `Except PyErr`; an operation that can raise returns
  `Except PyErr α`.
* dynamically typed inputs (the argument of `contains`) are `PyVal`, a small
  universe of Python runtime values: ints, lists, tuples and ndarrays.
-/

/-- Python exception kinds raised by the modelled code paths. -/
inductive PyErr where
  | attributeError
  | valueError
  | assertionError
  | indexError
deriving DecidableEq, Repr

/-- Model of `np.random.RandomState`: a deterministic generator with one state
word.  The update is a linear congruential stand-in for the Mersenne twister:
the proofs use only that the stream is a deterministic function of the state. -/
structure RandomState where
  state : Nat
deriving DecidableEq, Repr

/-- One raw draw of the generator: returns a 32-bit word and the next state. -/
def RandomState.next (g : RandomState) : Nat × RandomState :=
  let s := (g.state * 1664525 + 1013904223) % 2 ^ 32
  (s, ⟨s⟩)

/-- Model of `np.random.RandomState(); rs.seed(seed)`: seeding fully
determines the generator state from `seed`, discarding any previous state. -/
def RandomState.seedWith (s : Nat) : RandomState :=
  ⟨(s * 2654435761 + 1) % 2 ^ 32⟩

/-- Model of `RandomState.randint(low, high)`: uniform integer in
`[low, high)`; numpy raises `ValueError` when `high <= low`. -/
def RandomState.randint (g : RandomState) (low high : Int) :
    Except PyErr (Int × RandomState) :=
  if high ≤ low then .error .valueError
  else
    let (v, g') := g.next
    .ok (low + (v : Int) % (high - low), g')

/-- Model of one positive gamma variate used inside `np.random.dirichlet`
(numpy draws one standard gamma per concentration component and normalizes).
The value is an abstract positive rational determined by the state; only
positivity and determinism matter for the proofs. -/
def RandomState.standardGamma (g : RandomState) : ℚ × RandomState :=
  let (v, g') := g.next
  ((v : ℚ) + 1, g')

/-- Model of a numpy ndarray: a shape and the row-major flat data over exact
rationals. -/
structure NDArray where
  shape : List Nat
  data : List ℚ
deriving DecidableEq, Repr

/-- Product of a list of dimension sizes (number of positions of that shape). -/
def prodL (l : List Nat) : Nat := l.foldr (· * ·) 1

/-- Universe of dynamically typed Python values passed to `contains`. -/
inductive PyVal where
  | int : Int → PyVal
  | list : List PyVal → PyVal
  | tuple : List PyVal → PyVal
  | arr : NDArray → PyVal

/-- True exactly on the ndarray values (the values owning a `shape`
attribute). -/
def PyVal.isArr : PyVal → Bool
  | .arr _ => true
  | _ => false

/-- Draw `n` gamma variates sequentially, threading the generator. -/
def drawGammas : Nat → RandomState → List ℚ × RandomState
  | 0, g => ([], g)
  | n + 1, g =>
    let (v, g') := g.standardGamma
    let (rest, g'') := drawGammas n g'
    (v :: rest, g'')

/-- One Dirichlet row: `alpha.length` gammas, normalized by their sum
(numpy's gamma-normalization construction of the Dirichlet distribution). -/
def dirichletRow (alpha : List ℚ) (g : RandomState) : List ℚ × RandomState :=
  let (gs, g') := drawGammas alpha.length g
  (gs.map (· / gs.sum), g')

/-- Draw `k` independent Dirichlet rows and concatenate their data. -/
def drawRows (alpha : List ℚ) : Nat → RandomState → List ℚ × RandomState
  | 0, g => ([], g)
  | k + 1, g =>
    let (row, g') := dirichletRow alpha g
    let (rest, g'') := drawRows alpha k g'
    (row ++ rest, g'')

/-- Model of `np.random.dirichlet(alpha, size)`: raises `ValueError` on a
non-positive concentration entry, otherwise returns an array of shape
`size ++ [alpha.length]` whose last axis holds one Dirichlet row per position
of `size`. -/
def RandomState.dirichlet (g : RandomState) (alpha : List ℚ) (size : List Nat) :
    Except PyErr (NDArray × RandomState) :=
  if alpha.any (· ≤ 0) then .error .valueError
  else
    let (d, g') := drawRows alpha (prodL size) g
    .ok (⟨size ++ [alpha.length], d⟩, g')

/-! ### The `Repeated` space (`rllib/utils/spaces/simplex.py`, class `Repeated`)

The child space is an arbitrary gym space: it is represented by its own
mutable sampler state of type `σ` together with its `sample` and `contains`
methods, exactly the capability set `Repeated` uses. -/

structure Repeated (σ : Type) where
  childSample : σ → PyVal × σ
  childContains : PyVal → Except PyErr Bool
  childState : σ
  np_random : RandomState
  max_len : Int

/-- Model of `Repeated.seed(seed)`: `self.np_random = np.random.RandomState();
self.np_random.seed(seed)` — the generator is replaced by a freshly seeded
one, so the resulting state is a function of `seed` alone. -/
def Repeated.seed (r : Repeated σ) (s : Nat) : Repeated σ :=
  { r with np_random := RandomState.seedWith s }

/-- Draw `k` child samples sequentially, threading the child space's own
sampler state (the list comprehension `[self.child_space.sample() for _ in
range(n)]`). -/
def drawChild (f : σ → PyVal × σ) : Nat → σ → List PyVal × σ
  | 0, st => ([], st)
  | k + 1, st =>
    let (x, st') := f st
    let (rest, st'') := drawChild f k st'
    (x :: rest, st'')

/-- Model of `Repeated.sample()`: `n = self.np_random.randint(1, max_len + 1)`
then `n` independent child samples.  The count is drawn from the instance's
own generator; `randint` raises when its range is empty. -/
def Repeated.sample (r : Repeated σ) :
    Except PyErr (List PyVal × Repeated σ) :=
  match r.np_random.randint 1 (r.max_len + 1) with
  | .error e => .error e
  | .ok (n, g') =>
    let (xs, cs) := drawChild r.childSample n.toNat r.childState
    .ok (xs, { r with np_random := g', childState := cs })

/-- Python's `all(child_space.contains(c) for c in x)`: short-circuits at the
first `False`, propagates an exception raised by a child check. -/
def allExcept (f : PyVal → Except PyErr Bool) : List PyVal → Except PyErr Bool
  | [] => .ok true
  | c :: cs =>
    match f c with
    | .error e => .error e
    | .ok true => allExcept f cs
    | .ok false => .ok false

/-- Model of `Repeated.contains(x)`: `isinstance(x, list) and len(x) <=
self.max_len and all(self.child_space.contains(c) for c in x)`, with Python's
short-circuit evaluation (a non-list never reaches the child checks). -/
def Repeated.contains (r : Repeated σ) (x : PyVal) : Except PyErr Bool :=
  match x with
  | .list xs =>
    if (xs.length : Int) ≤ r.max_len then allExcept r.childContains xs
    else .ok false
  | _ => .ok false

/-- Iterated sampling: the outputs of `n` successive `sample()` calls on one
instance, threading the instance through (sampling stops at the first
exception). -/
def Repeated.sampleSeq (r : Repeated σ) : Nat → List (List PyVal)
  | 0 => []
  | n + 1 =>
    match r.sample with
    | .ok (xs, r') => xs :: r'.sampleSeq n
    | .error _ => []

/-! ### The `Simplex` space (`rllib/utils/spaces/simplex.py`, class `Simplex`) -/

structure Simplex where
  shape : List Nat
  concentration : Option (List ℚ)
  np_random : RandomState
deriving Repr

/-- Model of `Simplex.__init__(shape, concentration, dtype)`.  Mirrors the
source line by line: `self.dim = shape[-1]` (raises `IndexError` on an empty
shape); when `concentration` is supplied the code asserts
`concentration.shape == shape[:-1]` and, notably, never assigns
`self.concentration`, so the field stays absent (`none`); when it is omitted
the code stores `[1] * self.dim`.  `dtype` only selects the output cast,
which is the identity in this exact-arithmetic model, so it is not carried.
`entropy` stands for the OS entropy seeding the fresh unseeded
`np.random.RandomState()`. -/
def Simplex.init (shape : List Nat) (concentration : Option NDArray)
    (entropy : Nat) : Except PyErr Simplex :=
  match shape.getLast? with
  | none => .error .indexError
  | some dim =>
    match concentration with
    | some c =>
      if c.shape = shape.dropLast then
        .ok { shape := shape, concentration := none, np_random := ⟨entropy⟩ }
      else .error .assertionError
    | none =>
      .ok { shape := shape, concentration := some (List.replicate dim 1),
            np_random := ⟨entropy⟩ }

/-- Model of `Simplex.seed(seed)`: seeds the instance's own generator. -/
def Simplex.seed (sp : Simplex) (s : Nat) : Simplex :=
  { sp with np_random := RandomState.seedWith s }

/-- Model of `Simplex.sample()`.  Faithful to the source: the call is
`np.random.dirichlet(self.concentration, size=self.shape[:-1])`, i.e. it draws
from the module-level global generator (taken and returned here as `globalRS`)
and never touches `self.np_random`.  Reading `self.concentration` raises
`AttributeError` when the field was never assigned. -/
def Simplex.sample (sp : Simplex) (globalRS : RandomState) :
    Except PyErr (NDArray × RandomState) :=
  match sp.concentration with
  | none => .error .attributeError
  | some conc => globalRS.dirichlet conc sp.shape.dropLast

/-- The numpy `allclose` tolerance against the constant 1:
`atol + rtol * |1|` with the default `rtol = 1e-5`, `atol = 1e-8`. -/
def npTol : ℚ := 1 / 100000 + 1 / 100000000

/-- The sums of `x` along its last axis (`np.sum(x, axis=-1)`), flattened over
the leading axes in row-major order. -/
def lastAxisSums (a : NDArray) : List ℚ :=
  match a.shape.getLast? with
  | none => []
  | some dim =>
    (List.range (prodL a.shape.dropLast)).map
      (fun i => ((a.data.drop (i * dim)).take dim).sum)

/-- Model of `Simplex.contains(x)`: `x.shape == self.shape and
np.allclose(np.sum(x, axis=-1), np.ones_like(x[..., 0]))`.  Accessing
`x.shape` on a non-array raises `AttributeError`; when the shapes match but
the last axis has size 0, `x[..., 0]` raises `IndexError`; otherwise the
result is the boolean `allclose` verdict.  No non-negativity check appears
anywhere. -/
def Simplex.contains (sp : Simplex) (x : PyVal) : Except PyErr Bool :=
  match x with
  | .arr a =>
    if a.shape = sp.shape then
      if a.shape.getLast? = some 0 then .error .indexError
      else .ok ((lastAxisSums a).all (fun s => |s - 1| ≤ npTol))
    else .ok false
  | _ => .error .attributeError

/-- Elementwise `np.allclose` of two concentration vectors (used by
`Simplex.__eq__`); numpy raises on a broadcast mismatch of distinct lengths. -/
def allcloseL (xs ys : List ℚ) : Except PyErr Bool :=
  if xs.length = ys.length then
    .ok ((xs.zip ys).all (fun p => |p.1 - p.2| ≤ npTol))
  else .error .valueError

/-- Model of `Simplex.__eq__`: `np.allclose(self.concentration,
other.concentration) and self.shape == other.shape`; reading an absent
`concentration` field raises `AttributeError`. -/
def Simplex.eq (sp other : Simplex) : Except PyErr Bool :=
  match sp.concentration, other.concentration with
  | some ca, some cb =>
    match allcloseL ca cb with
    | .error e => .error e
    | .ok b => .ok (b && decide (sp.shape = other.shape))
  | _, _ => .error .attributeError

/-! ### JSON round trip (`Simplex.to_jsonable` / `Simplex.from_jsonable`) -/

/-- Plain nested-list JSON-serializable values (`np.array(...).tolist()`
output). -/
inductive JVal where
  | num : ℚ → JVal
  | arr : List JVal → JVal

/-- Nested-list rendering of one ndarray (`x.tolist()`): recursively split the
flat data along the leading dimension. -/
def toNested : List Nat → List ℚ → JVal
  | [], d => .num (d.headD 0)
  | n :: rest, d =>
    .arr ((List.range n).map
      (fun i => toNested rest ((d.drop (i * prodL rest)).take (prodL rest))))

mutual
/-- Flat row-major data recovered from a nested-list value (`np.asarray`). -/
def flatJ : JVal → List ℚ
  | .num q => [q]
  | .arr xs => flatJList xs

/-- Flat data of a list of nested values, concatenated. -/
def flatJList : List JVal → List ℚ
  | [] => []
  | x :: xs => flatJ x ++ flatJList xs
end

/-- Shape inferred by `np.asarray` from the nesting structure (depth-first
along first elements). -/
def inferShape : JVal → List Nat
  | .num _ => []
  | .arr [] => [0]
  | .arr (x :: xs) => (x :: xs).length :: inferShape x

/-- Model of `Simplex.to_jsonable(sample_n)`:
`np.array(sample_n).tolist()` — each sample rendered as nested lists (the
outer stacking axis becomes the outer Python list). -/
def Simplex.to_jsonable (sample_n : List NDArray) : List JVal :=
  sample_n.map (fun x => toNested x.shape x.data)

/-- Model of `Simplex.from_jsonable(sample_n)`:
`[np.asarray(sample) for sample in sample_n]`. -/
def Simplex.from_jsonable (sample_n : List JVal) : List NDArray :=
  sample_n.map (fun j => ⟨inferShape j, flatJ j⟩)

/-! ### `ListBatch` (`rllib/models/list_batch.py`) -/

/-- Model of `ListBatch.__init__`: stores the three arguments verbatim.  The
`value` tensor is an `NDArray`, `lengths` a list of ints, exactly the types of
the spec's concrete scenario. -/
structure ListBatch where
  value : NDArray
  lengths : List Int
  max_len : Int

/-- Deterministic rendering of a rational (stand-in for Python `repr` of a
number). -/
def reprQ (q : ℚ) : String := toString q

/-- Python `repr` of a list: bracketed, comma-separated element reprs. -/
def reprList (f : α → String) (l : List α) : String :=
  "[" ++ String.intercalate ", " (l.map f) ++ "]"

/-- Deterministic rendering of an ndarray (stand-in for numpy `repr`). -/
def reprNDArray (a : NDArray) : String :=
  "array(" ++ reprList reprQ a.data ++ ")"

/-- Model of `ListBatch.__repr__`: the format string
`"ListBatch(value=..., lengths=..., max_len=...)"` with the `repr` of each
field spliced in. -/
def ListBatch.reprStr (b : ListBatch) : String :=
  "ListBatch(value=" ++ reprNDArray b.value ++ ", lengths=" ++
    reprList toString b.lengths ++ ", max_len=" ++ toString b.max_len ++ ")"

/-- Model of `ListBatch.__str__`: `return repr(self)`. -/
def ListBatch.strStr (b : ListBatch) : String := b.reprStr

/-! ### Spec-side definition for the refinement claim about `contains` -/

/-- Translation of the spec's phrase "x is a sequence type": Python sequence
types include both lists and tuples.  This definition follows the spec's
words; the source's check is `isinstance(x, list)`. -/
def pySequenceType : PyVal → Bool
  | .list _ => true
  | .tuple _ => true
  | _ => false

/-- Length of a Python sequence value (`len(x)` where `x` is a sequence). -/
def pySeqLen : PyVal → Nat
  | .list xs => xs.length
  | .tuple xs => xs.length
  | _ => 0

/-! ### Concrete instances used by witnesses and counterexamples -/

/-- A `Repeated` space with `max_len = 1` over a trivial child space whose
`contains` accepts every value. -/
def rOne : Repeated Unit :=
  ⟨fun st => (.int 0, st), fun _ => .ok true, (), ⟨0⟩, 1⟩

/-- A `Repeated` space with `max_len = 0` over the same trivial child. -/
def rZero : Repeated Unit :=
  ⟨fun st => (.int 0, st), fun _ => .ok true, (), ⟨0⟩, 0⟩

/-- A `Repeated` space with `max_len = 3` over the trivial child. -/
def rThree : Repeated Unit :=
  ⟨fun st => (.int 0, st), fun _ => .ok true, (), ⟨7⟩, 3⟩

/-- The simplex space `Simplex(shape=(2,))` constructed without an explicit
concentration (so its concentration field holds `[1, 1]`). -/
def spcDef : Simplex := ⟨[2], some [1, 1], ⟨0⟩⟩

/-- Two concrete members of a `(2,)`-shaped simplex space, used to exercise
the JSON round trip. -/
def xsC : List NDArray := [⟨[2], [1/2, 1/2]⟩, ⟨[2], [1/3, 2/3]⟩]

/-- The concrete padded batch of the spec's scenario: `value = zeros((2,5,4))`,
`lengths = [3, 5]`, `max_len = 5`. -/
def lbC : ListBatch := ⟨⟨[2, 5, 4], List.replicate 40 0⟩, [3, 5], 5⟩

/-! ### Helper lemmas -/

theorem allExcept_eq_ok_true (f : PyVal → Except PyErr Bool) :
    ∀ xs : List PyVal, allExcept f xs = .ok true ↔ ∀ c ∈ xs, f c = .ok true := by
  intro xs
  induction xs with
  | nil => simp [allExcept]
  | cons c cs ih =>
    simp only [allExcept]
    cases hfc : f c with
    | error e => simp [hfc]
    | ok b =>
      cases b with
      | true => simp [ih, hfc]
      | false => simp [hfc]

theorem allExcept_total (f : PyVal → Except PyErr Bool)
    (hf : ∀ v, ∃ b, f v = .ok b) :
    ∀ xs : List PyVal, ∃ b, allExcept f xs = .ok b := by
  intro xs
  induction xs with
  | nil => exact ⟨true, rfl⟩
  | cons c cs ih =>
    obtain ⟨b, hb⟩ := hf c
    cases b with
    | true =>
      obtain ⟨b', hb'⟩ := ih
      exact ⟨b', by simp [allExcept, hb, hb']⟩
    | false => exact ⟨false, by simp [allExcept, hb]⟩

theorem drawChild_length (f : σ → PyVal × σ) :
    ∀ (k : Nat) (st : σ), ((drawChild f k st).1).length = k := by
  intro k
  induction k with
  | zero => intro st; rfl
  | succ k ih => intro st; simp [drawChild, ih]

theorem drawChild_accepted (f : σ → PyVal × σ) (g : PyVal → Except PyErr Bool)
    (hacc : ∀ st : σ, g (f st).1 = .ok true) :
    ∀ (k : Nat) (st : σ) (c : PyVal), c ∈ (drawChild f k st).1 → g c = .ok true := by
  intro k
  induction k with
  | zero => intro st c hc; simp [drawChild] at hc
  | succ k ih =>
    intro st c hc
    simp only [drawChild, List.mem_cons] at hc
    rcases hc with h | h
    · subst h; exact hacc st
    · exact ih _ _ h

theorem randint_pos (g : RandomState) (m : Int) (h : 1 ≤ m) :
    ∃ n g', g.randint 1 (m + 1) = .ok (n, g') ∧ 1 ≤ n ∧ n ≤ m := by
  have hlt : ¬ (m + 1 ≤ 1) := by omega
  refine ⟨1 + (g.next.1 : Int) % (m + 1 - 1), g.next.2, ?_, ?_, ?_⟩
  · simp [RandomState.randint, hlt]
  · have h0 : (0 : Int) ≤ (g.next.1 : Int) % (m + 1 - 1) :=
      Int.emod_nonneg _ (by omega)
    omega
  · have h1 : (g.next.1 : Int) % (m + 1 - 1) < m + 1 - 1 :=
      Int.emod_lt_of_pos _ (by omega)
    omega

theorem drawGammas_length : ∀ (n : Nat) (g : RandomState),
    ((drawGammas n g).1).length = n := by
  intro n
  induction n with
  | zero => intro g; rfl
  | succ n ih => intro g; simp [drawGammas, ih]

theorem drawGammas_ge_one : ∀ (n : Nat) (g : RandomState) (q : ℚ),
    q ∈ (drawGammas n g).1 → 1 ≤ q := by
  intro n
  induction n with
  | zero => intro g q hq; simp [drawGammas] at hq
  | succ n ih =>
    intro g q hq
    simp only [drawGammas, List.mem_cons] at hq
    rcases hq with h | h
    · subst h
      simp only [RandomState.standardGamma]
      have : (0 : ℚ) ≤ (g.next.1 : ℚ) := Nat.cast_nonneg _
      linarith
    · exact ih _ _ h

theorem sum_map_div (l : List ℚ) (c : ℚ) :
    (l.map (· / c)).sum = l.sum / c := by
  induction l with
  | nil => simp
  | cons a t ih => simp [ih, add_div]

theorem dirichletRow_length (alpha : List ℚ) (g : RandomState) :
    ((dirichletRow alpha g).1).length = alpha.length := by
  simp [dirichletRow, drawGammas_length]

theorem dirichletRow_nonneg (alpha : List ℚ) (g : RandomState) (q : ℚ)
    (hq : q ∈ (dirichletRow alpha g).1) : 0 ≤ q := by
  simp only [dirichletRow, List.mem_map] at hq
  obtain ⟨x, hx, rfl⟩ := hq
  have hx1 : (1 : ℚ) ≤ x := drawGammas_ge_one _ _ _ hx
  have hs : (0 : ℚ) ≤ ((drawGammas alpha.length g).1).sum :=
    List.sum_nonneg (fun a ha => le_trans zero_le_one (drawGammas_ge_one _ _ _ ha))
  exact div_nonneg (by linarith) hs

theorem dirichletRow_sum (alpha : List ℚ) (ha : 1 ≤ alpha.length)
    (g : RandomState) : ((dirichletRow alpha g).1).sum = 1 := by
  have hlen : ((drawGammas alpha.length g).1).length = alpha.length :=
    drawGammas_length _ _
  have hne : (drawGammas alpha.length g).1 ≠ [] := by
    intro h
    rw [h] at hlen
    simp at hlen
    omega
  have hpos : (0 : ℚ) < ((drawGammas alpha.length g).1).sum :=
    List.sum_pos _ (fun a ha => lt_of_lt_of_le zero_lt_one
      (drawGammas_ge_one _ _ _ ha)) hne
  simp only [dirichletRow, sum_map_div]
  exact div_self (ne_of_gt hpos)

theorem drawRows_length (alpha : List ℚ) : ∀ (k : Nat) (g : RandomState),
    ((drawRows alpha k g).1).length = k * alpha.length := by
  intro k
  induction k with
  | zero => intro g; simp [drawRows]
  | succ k ih =>
    intro g
    simp only [drawRows, List.length_append, dirichletRow_length, ih]
    ring

theorem drawRows_nonneg (alpha : List ℚ) : ∀ (k : Nat) (g : RandomState)
    (q : ℚ), q ∈ (drawRows alpha k g).1 → 0 ≤ q := by
  intro k
  induction k with
  | zero => intro g q hq; simp [drawRows] at hq
  | succ k ih =>
    intro g q hq
    simp only [drawRows, List.mem_append] at hq
    rcases hq with h | h
    · exact dirichletRow_nonneg _ _ _ h
    · exact ih _ _ h

theorem take_append_len (l₁ l₂ : List α) : (l₁ ++ l₂).take l₁.length = l₁ := by
  induction l₁ with
  | nil => simp
  | cons a t ih => simp [ih]

theorem drop_append_len (l₁ l₂ : List α) (m : Nat) :
    (l₁ ++ l₂).drop (l₁.length + m) = l₂.drop m := by
  induction l₁ with
  | nil => simp
  | cons a t ih => simp [Nat.succ_add, ih]

theorem drawRows_chunk_sum (alpha : List ℚ) (ha : 1 ≤ alpha.length) :
    ∀ (k : Nat) (g : RandomState) (i : Nat), i < k →
      ((((drawRows alpha k g).1).drop (i * alpha.length)).take
        alpha.length).sum = 1 := by
  intro k
  induction k with
  | zero => intro g i hi; omega
  | succ k ih =>
    intro g i hi
    cases i with
    | zero =>
      simp only [drawRows, Nat.zero_mul, List.drop_zero]
      rw [show alpha.length = ((dirichletRow alpha g).1).length from
        (dirichletRow_length alpha g).symm, take_append_len]
      exact dirichletRow_sum alpha ha g
    | succ i =>
      simp only [drawRows]
      rw [show (i + 1) * alpha.length =
        ((dirichletRow alpha g).1).length + i * alpha.length by
          rw [dirichletRow_length]; ring, drop_append_len]
      exact ih _ _ (by omega)

theorem prodL_concat (l : List Nat) (d : Nat) :
    prodL (l ++ [d]) = prodL l * d := by
  induction l with
  | nil => simp [prodL]
  | cons a t ih => simp [prodL, List.foldr] at ih ⊢; rw [ih]; ring

theorem flatJList_cons (x : JVal) (xs : List JVal) :
    flatJList (x :: xs) = flatJ x ++ flatJList xs := rfl

theorem flatJList_chunks (c : Nat) (f : List ℚ → JVal)
    (hf : ∀ d' : List ℚ, d'.length = c → flatJ (f d') = d') :
    ∀ (n : Nat) (d : List ℚ), d.length = n * c →
      flatJList ((List.range n).map
        (fun i => f ((d.drop (i * c)).take c))) = d := by
  intro n
  induction n with
  | zero =>
    intro d hd
    have : d = [] := List.eq_nil_of_length_eq_zero (by omega)
    simp [this, flatJList]
  | succ n ih =>
    intro d hd
    have hcle : c ≤ d.length := by
      rw [hd, Nat.succ_mul]
      exact Nat.le_add_left c (n * c)
    rw [List.range_succ_eq_map, List.map_cons, flatJList_cons]
    have htake : (d.take c).length = c := by
      rw [List.length_take]
      omega
    rw [Nat.zero_mul, List.drop_zero, hf _ htake]
    have hmap : ((List.range n).map Nat.succ).map
        (fun i => f ((d.drop (i * c)).take c)) =
        (List.range n).map
          (fun i => f (((d.drop c).drop (i * c)).take c)) := by
      rw [List.map_map]
      refine List.map_congr_left ?_
      intro i _
      simp only [Function.comp]
      congr 2
      rw [List.drop_drop]
      congr 1
      rw [Nat.succ_mul]
      ring
    have hdroplen : (d.drop c).length = n * c := by
      rw [List.length_drop, hd, Nat.succ_mul]
      omega
    rw [hmap, ih (d.drop c) hdroplen]
    exact List.take_append_drop c d

theorem flatJ_toNested : ∀ (shape : List Nat) (d : List ℚ),
    d.length = prodL shape → flatJ (toNested shape d) = d := by
  intro shape
  induction shape with
  | nil =>
    intro d hd
    simp only [prodL, List.foldr] at hd
    match d, hd with
    | [q], _ => rfl
  | cons n rest ih =>
    intro d hd
    simp only [toNested, flatJ]
    exact flatJList_chunks (prodL rest) (toNested rest)
      (fun d' hd' => ih d' hd') n d (by simpa [prodL, List.foldr] using hd)

theorem inferShape_toNested : ∀ (shape : List Nat),
    (∀ n ∈ shape, 1 ≤ n) → ∀ d : List ℚ, d.length = prodL shape →
      inferShape (toNested shape d) = shape := by
  intro shape
  induction shape with
  | nil => intro _ d _; rfl
  | cons n rest ih =>
    intro hpos d hd
    obtain ⟨m, rfl⟩ : ∃ m, n = m + 1 :=
      ⟨n - 1, by have := hpos n (by simp); omega⟩
    have hcle : prodL rest ≤ d.length := by
      have : d.length = (m + 1) * prodL rest := hd
      rw [this, Nat.succ_mul]
      exact Nat.le_add_left _ _
    simp only [toNested]
    rw [List.range_succ_eq_map, List.map_cons]
    simp only [inferShape, Nat.zero_mul, List.drop_zero]
    congr 1
    · simp
    · exact ih (fun a ha => hpos a (by simp [ha])) _
        (by rw [List.length_take]; omega)

theorem getLast?_concat_eq (l : List Nat) (d : Nat) :
    (l ++ [d]).getLast? = some d := by
  simp [List.getLast?_concat]

theorem dropLast_concat_eq (l : List Nat) (d : Nat) :
    (l ++ [d]).dropLast = l := by
  simp

theorem shape_split (shape : List Nat) (d : Nat)
    (hd : shape.getLast? = some d) : shape.dropLast ++ [d] = shape := by
  have hne : shape ≠ [] := by
    intro h; rw [h] at hd; simp at hd
  have h2 : shape.getLast hne = d := by
    rw [List.getLast?_eq_getLast _ hne] at hd
    exact Option.some_inj.mp hd
  rw [← h2]
  exact List.dropLast_append_getLast hne

/-! ### Claim theorems -/

/-- C1: the claim says the concentration field is populated after every
successful construction.  The code contradicts it: constructing `Simplex`
with an explicit concentration passing the shape assert (here a 0-d array
over `shape[:-1] = ()` for `shape = (3,)`) succeeds yet leaves
`self.concentration` unassigned, so `sample()` and `__eq__` raise
`AttributeError`; only the default branch stores the uniform vector of
`dim` ones. -/
theorem c1_concentration_after_init :
    (∃ sp, Simplex.init [3] (some ⟨[], [5]⟩) 0 = .ok sp ∧
      sp.concentration = none ∧
      sp.sample ⟨0⟩ = .error .attributeError ∧
      sp.eq sp = .error .attributeError) ∧
    (∃ sp2, Simplex.init [3] none 0 = .ok sp2 ∧
      sp2.concentration = some [1, 1, 1]) :=
  ⟨⟨⟨[3], none, ⟨0⟩⟩, rfl, rfl, rfl, rfl⟩,
    ⟨⟨[3], some [1, 1, 1], ⟨0⟩⟩, rfl, rfl⟩⟩

/-- Reseeding a `Simplex` leaves `sample` untouched: the method reads only
`concentration`, `shape` and the global generator, never `self.np_random`. -/
theorem seed_sample_invariant (sp : Simplex) (s : Nat) (g : RandomState) :
    (sp.seed s).sample g = sp.sample g := by
  cases sp
  rfl

/-- C2: after `reseed(seed)`, `Repeated` sampling is a function of the seed
and call sequence alone (first conjunct: two instances differing only in
their prior generator state, reseeded with the same seed, produce identical
sample sequences).  For `Simplex` the claim fails in the code:
`Simplex.sample` draws from the global `np.random` generator and ignores
`self.np_random`, so its output is invariant under the instance seed (second
conjunct) while it does vary with the global generator state the instance
does not own (third conjunct, at the concrete space `Simplex((2,))`). -/
theorem c2_reseed_determinism :
    (∀ (σ : Type) (base : Repeated σ) (g1 g2 : RandomState) (s n : Nat),
      (({ base with np_random := g1 }).seed s).sampleSeq n =
        (({ base with np_random := g2 }).seed s).sampleSeq n) ∧
    (∀ (sp : Simplex) (s1 s2 : Nat) (g : RandomState),
      (sp.seed s1).sample g = (sp.seed s2).sample g) ∧
    (∃ sp, Simplex.init [2] none 0 = .ok sp ∧
      (sp.seed 0).sample ⟨0⟩ ≠ (sp.seed 0).sample ⟨1⟩) := by
  refine ⟨fun σ base g1 g2 s n => by cases base; rfl,
    fun sp s1 s2 g =>
      (seed_sample_invariant sp s1 g).trans
        (seed_sample_invariant sp s2 g).symm,
    ⟨⟨[2], some [1, 1], ⟨0⟩⟩, rfl, ?_⟩⟩
  norm_num [Simplex.seed, Simplex.sample, RandomState.dirichlet, drawRows,
    dirichletRow, drawGammas, RandomState.standardGamma, RandomState.next,
    prodL]

/-- C9: `ListBatch` stores its three constructor arguments verbatim, the
accessors return them unchanged, `str` delegates to `repr`, and the formatted
string of the spec's concrete scenario (`value = zeros((2,5,4))`,
`lengths = [3,5]`, `max_len = 5`) contains the literal substring
`"max_len=5"`. -/
theorem c9_listbatch_fields_and_repr :
    (∀ (v : NDArray) (l : List Int) (m : Int),
      (ListBatch.mk v l m).value = v ∧ (ListBatch.mk v l m).lengths = l ∧
        (ListBatch.mk v l m).max_len = m ∧
        (ListBatch.mk v l m).strStr = (ListBatch.mk v l m).reprStr) ∧
    (∃ pre post : String, lbC.reprStr = pre ++ "max_len=5" ++ post) := by
  refine ⟨fun v l m => ⟨rfl, rfl, rfl, rfl⟩,
    ⟨"ListBatch(value=" ++ reprNDArray lbC.value ++ ", lengths=" ++
      reprList toString lbC.lengths ++ ", ", ")", ?_⟩⟩
  simp only [ListBatch.reprStr, String.append_assoc]
  congr 1

/-- C10: when `max_len < 1` the count range `{1, ..., max_len}` is empty and
`Repeated.sample` raises (`randint(1, max_len + 1)` with an empty interval),
while `contains` still accepts the empty list when `max_len = 0`. -/
theorem c10_sample_errors_when_max_len_lt_one (σ : Type) (r : Repeated σ)
    (h : r.max_len < 1) :
    r.sample = .error .valueError ∧
      (r.max_len = 0 → r.contains (.list []) = .ok true) := by
  constructor
  · have h1 : r.max_len + 1 ≤ 1 := by omega
    simp [Repeated.sample, RandomState.randint, h1]
  · intro h0
    simp [Repeated.contains, allExcept, h0]

/-- C10 witness: the `max_len = 0` instance `rZero` satisfies the hypothesis
and exhibits both behaviors. -/
theorem c10_witness :
    rZero.max_len < 1 ∧ rZero.sample = .error .valueError ∧
      rZero.contains (.list []) = .ok true :=
  ⟨by decide,
    (c10_sample_errors_when_max_len_lt_one Unit rZero (by decide)).1,
    (c10_sample_errors_when_max_len_lt_one Unit rZero (by decide)).2 rfl⟩

/-- C3 counterexample: the claim says both `contains` methods return a
boolean and never raise for every input of any type; but
`Simplex((2,)).contains(5)` evaluates `x.shape` on an int and raises
`AttributeError`. -/
theorem c3_cex : spcDef.contains (.int 5) = .error .attributeError := rfl

/-- C3 (amended): `Repeated.contains` terminates with a boolean for every
input provided the child's `contains` does; `Simplex.contains` raises
`AttributeError` on every input without a `shape` attribute, and returns a
boolean on every ndarray input whenever the space's simplex dimension is at
least 1. -/
theorem c3_contains_total_or_raises (σ : Type) (r : Repeated σ)
    (hchild : ∀ v, ∃ b, r.childContains v = .ok b) :
    (∀ x, ∃ b, r.contains x = .ok b) ∧
    (∀ (sp : Simplex) (x : PyVal), x.isArr = false →
      sp.contains x = .error .attributeError) ∧
    (∀ (sp : Simplex) (d : Nat), sp.shape.getLast? = some d → 1 ≤ d →
      ∀ a : NDArray, ∃ b, sp.contains (.arr a) = .ok b) := by
  refine ⟨?_, ?_, ?_⟩
  · intro x
    cases x with
    | list xs =>
      by_cases hlen : (xs.length : Int) ≤ r.max_len
      · obtain ⟨b, hb⟩ := allExcept_total r.childContains hchild xs
        exact ⟨b, by simp [Repeated.contains, hlen, hb]⟩
      · exact ⟨false, by simp [Repeated.contains, hlen]⟩
    | int n => exact ⟨false, rfl⟩
    | tuple xs => exact ⟨false, rfl⟩
    | arr a => exact ⟨false, rfl⟩
  · intro sp x hx
    cases x <;> simp_all [PyVal.isArr, Simplex.contains]
  · intro sp d hd h1 a
    simp only [Simplex.contains]
    by_cases hsh : a.shape = sp.shape
    · have hne : ¬ (a.shape.getLast? = some 0) := by
        intro hcon
        rw [hsh, hd] at hcon
        simp at hcon
        omega
      exact ⟨_, by rw [if_pos hsh, if_neg hne]⟩
    · exact ⟨false, by rw [if_neg hsh]⟩

/-- C3 witness: concrete instances hitting all three amended conclusions. -/
theorem c3_witness :
    (∃ b, rOne.contains (.list [.int 0, .tuple []]) = .ok b) ∧
    spcDef.contains (.list []) = .error .attributeError ∧
    (∃ b, spcDef.contains (.arr ⟨[3], []⟩) = .ok b) :=
  ⟨(c3_contains_total_or_raises Unit rOne (fun v => ⟨true, rfl⟩)).1 _,
    (c3_contains_total_or_raises Unit rOne (fun v => ⟨true, rfl⟩)).2.1
      spcDef _ rfl,
    (c3_contains_total_or_raises Unit rOne (fun v => ⟨true, rfl⟩)).2.2
      spcDef 2 rfl (by decide) _⟩

/-- C5 counterexample: the claim says `contains` returns true iff the input
is a sequence type of length at most `max_len` whose elements all pass the
child check.  The empty tuple is a sequence type, has length `0 ≤ 1`, and
all (zero) elements pass, yet the code's `isinstance(x, list)` check rejects
it. -/
theorem c5_cex :
    pySequenceType (.tuple []) = true ∧
      (pySeqLen (.tuple []) : Int) ≤ rOne.max_len ∧
      (∀ c ∈ ([] : List PyVal), rOne.childContains c = .ok true) ∧
      rOne.contains (.tuple []) = .ok false :=
  ⟨rfl, by decide, by simp, rfl⟩

/-- C5 (amended): `Repeated.contains(x)` returns true iff `x` is a Python
list, `len(x) <= max_len`, and every element passes the child's `contains`;
the empty list is accepted for every `max_len >= 1`; any non-list input —
including other sequence types such as tuples — yields false. -/
theorem c5_contains_iff_list (σ : Type) (r : Repeated σ) :
    (∀ x, r.contains x = .ok true ↔
      ∃ xs, x = .list xs ∧ (xs.length : Int) ≤ r.max_len ∧
        ∀ c ∈ xs, r.childContains c = .ok true) ∧
    (1 ≤ r.max_len → r.contains (.list []) = .ok true) ∧
    (∀ x, pySequenceType x = false → r.contains x = .ok false) ∧
    (∀ xs, r.contains (.tuple xs) = .ok false) := by
  refine ⟨?_, ?_, ?_, fun xs => rfl⟩
  · intro x
    cases x with
    | list xs =>
      by_cases hlen : (xs.length : Int) ≤ r.max_len
      · simp only [Repeated.contains, if_pos hlen]
        rw [allExcept_eq_ok_true]
        constructor
        · intro h
          exact ⟨xs, rfl, hlen, h⟩
        · rintro ⟨xs', hx, _, h⟩
          injection hx with h'
          subst h'
          exact h
      · simp only [Repeated.contains, if_neg hlen]
        constructor
        · intro h
          simp at h
        · rintro ⟨xs', hx, hlen', _⟩
          injection hx with h'
          subst h'
          exact absurd hlen' hlen
    | int n => simp [Repeated.contains]
    | tuple xs => simp [Repeated.contains]
    | arr a => simp [Repeated.contains]
  · intro h1
    simp [Repeated.contains, allExcept]
    omega
  · intro x hx
    cases x <;> simp_all [pySequenceType, Repeated.contains]

/-- C5 witness: the amended statement applied at the concrete `max_len = 1`
space `rOne`. -/
theorem c5_witness :
    1 ≤ rOne.max_len ∧ rOne.contains (.list []) = .ok true ∧
      rOne.contains (.int 3) = .ok false :=
  ⟨by decide, (c5_contains_iff_list Unit rOne).2.1 (by decide),
    (c5_contains_iff_list Unit rOne).2.2.1 (.int 3) rfl⟩

/-- C7: `Simplex.contains` on an ndarray returns true iff the shape matches
and every last-axis sum is within the fixed `allclose` tolerance of 1 (for a
space whose simplex dimension is at least 1); no non-negativity condition
appears, and the concrete array `[-1, 2]` with a negative entry is accepted
by the `(2,)`-shaped space. -/
theorem c7_simplex_contains_iff (sp : Simplex) (d : Nat)
    (hd : sp.shape.getLast? = some d) (h1 : 1 ≤ d) :
    (∀ a : NDArray, sp.contains (.arr a) = .ok true ↔
      (a.shape = sp.shape ∧ ∀ s ∈ lastAxisSums a, |s - 1| ≤ npTol)) ∧
    (Simplex.contains ⟨[2], some [1, 1], ⟨0⟩⟩ (.arr ⟨[2], [-1, 2]⟩) =
        .ok true ∧ (-1 : ℚ) < 0) := by
  constructor
  · intro a
    simp only [Simplex.contains]
    by_cases hsh : a.shape = sp.shape
    · have hne : ¬ (a.shape.getLast? = some 0) := by
        intro hcon
        rw [hsh, hd] at hcon
        simp at hcon
        omega
      rw [if_pos hsh, if_neg hne]
      simp [List.all_eq_true, hsh]
    · rw [if_neg hsh]
      simp [hsh]
  · constructor
    · norm_num [Simplex.contains, lastAxisSums, prodL, npTol]
    · norm_num

/-- C7 witness: the `(2,)`-shaped space `spcDef` satisfies the dimension
hypothesis, and the iff accepts the negative-entry array summing to 1. -/
theorem c7_witness :
    spcDef.contains (.arr ⟨[2], [-1, 2]⟩) = .ok true :=
  ((c7_simplex_contains_iff spcDef 2 rfl (by decide)).1 _).mpr
    (by norm_num [lastAxisSums, prodL, npTol, spcDef])

/-- C4: with `max_len >= 1` and a child accepting its own samples,
`Repeated.sample` succeeds with a list of between 1 and `max_len` child draws
(never empty), the elements are exactly successive `child_space.sample()`
draws, and `Repeated.contains` accepts the sampled value. -/
theorem c4_repeated_sample_in_range (σ : Type) (r : Repeated σ)
    (hmax : 1 ≤ r.max_len)
    (hacc : ∀ st : σ, r.childContains (r.childSample st).1 = .ok true) :
    ∃ xs r', r.sample = .ok (xs, r') ∧
      1 ≤ xs.length ∧ (xs.length : Int) ≤ r.max_len ∧
      xs = (drawChild r.childSample xs.length r.childState).1 ∧
      r.contains (.list xs) = .ok true := by
  obtain ⟨n, g', hrand, hn1, hn2⟩ := randint_pos r.np_random r.max_len hmax
  have hlen : ((drawChild r.childSample n.toNat r.childState).1).length =
      n.toNat := drawChild_length r.childSample n.toNat r.childState
  refine ⟨(drawChild r.childSample n.toNat r.childState).1,
    { r with np_random := g', childState := (drawChild r.childSample n.toNat r.childState).2 },
    ?_, ?_, ?_, ?_, ?_⟩
  · simp [Repeated.sample, hrand]
  · rw [hlen]; omega
  · rw [hlen]; omega
  · rw [hlen]
  · have hcond :
        (((drawChild r.childSample n.toNat r.childState).1.length : Int)) ≤
          r.max_len := by rw [hlen]; omega
    simp only [Repeated.contains, if_pos hcond]
    rw [allExcept_eq_ok_true]
    intro c hc
    exact drawChild_accepted r.childSample r.childContains hacc _ _ c hc

/-- C4 witness: the `max_len = 3` space `rThree` over the trivial child. -/
theorem c4_witness :
    1 ≤ rThree.max_len ∧
      ∃ xs r', rThree.sample = .ok (xs, r') ∧ 1 ≤ xs.length ∧
        (xs.length : Int) ≤ rThree.max_len ∧
        xs = (drawChild rThree.childSample xs.length rThree.childState).1 ∧
        rThree.contains (.list xs) = .ok true :=
  ⟨by decide,
    c4_repeated_sample_in_range Unit rThree (by decide) (fun st => rfl)⟩

/-- C6: for a shape whose simplex dimension `shape[-1] = d` is at least 1,
`Simplex(shape)` (no explicit concentration) constructs successfully and
`sample()` returns an array of exactly that shape whose entries are
non-negative and whose every last-axis sum equals 1 exactly (hence within any
tolerance), the Dirichlet rows being normalized gamma draws with no further
renormalization; the `astype(dtype)` cast is the identity on the exact
rational values. -/
theorem c6_simplex_sample_shape_and_sums (shape : List Nat) (d : Nat)
    (hd : shape.getLast? = some d) (h1 : 1 ≤ d) (entropy : Nat)
    (g : RandomState) :
    ∃ sp a g', Simplex.init shape none entropy = .ok sp ∧
      sp.sample g = .ok (a, g') ∧
      a.shape = shape ∧ a.data.length = prodL shape ∧
      (∀ q ∈ a.data, 0 ≤ q) ∧
      (∀ s ∈ lastAxisSums a, s = 1) := by
  have hinit : Simplex.init shape none entropy =
      .ok ⟨shape, some (List.replicate d 1), ⟨entropy⟩⟩ := by
    simp [Simplex.init, hd]
  have halen : (List.replicate d (1 : ℚ)).length = d := List.length_replicate d 1
  have hany : (List.replicate d (1 : ℚ)).any (· ≤ 0) = false := by
    rw [List.any_eq_false]
    intro x hx
    rw [List.eq_of_mem_replicate hx]
    norm_num
  have hsample : Simplex.sample ⟨shape, some (List.replicate d 1), ⟨entropy⟩⟩ g =
      .ok (⟨shape.dropLast ++ [(List.replicate d (1 : ℚ)).length],
        (drawRows (List.replicate d 1) (prodL shape.dropLast) g).1⟩,
        (drawRows (List.replicate d 1) (prodL shape.dropLast) g).2) := by
    simp [Simplex.sample, RandomState.dirichlet, hany]
  refine ⟨_, _, _, hinit, hsample, ?_, ?_, ?_, ?_⟩
  · show shape.dropLast ++ [(List.replicate d (1 : ℚ)).length] = shape
    rw [halen]
    exact shape_split shape d hd
  · show ((drawRows (List.replicate d 1) (prodL shape.dropLast) g).1).length =
      prodL shape
    rw [drawRows_length, halen]
    conv_rhs => rw [← shape_split shape d hd]
    rw [prodL_concat]
  · intro q hq
    exact drawRows_nonneg _ _ _ _ hq
  · intro s hs
    simp only [lastAxisSums, getLast?_concat_eq, dropLast_concat_eq] at hs
    simp only [List.mem_map, List.mem_range] at hs
    obtain ⟨i, hi, rfl⟩ := hs
    exact drawRows_chunk_sum (List.replicate d 1) (by rw [halen]; omega)
      _ _ i hi

/-- C6 witness: the concrete shape `(2, 3)` with `dim = 3`, the fresh
generator state 0 for both the instance and the global generator. -/
theorem c6_witness :
    [2, 3].getLast? = some 3 ∧
      (∃ sp a g', Simplex.init [2, 3] none 0 = .ok sp ∧
        sp.sample ⟨0⟩ = .ok (a, g') ∧
        a.shape = [2, 3] ∧ a.data.length = prodL [2, 3] ∧
        (∀ q ∈ a.data, 0 ≤ q) ∧
        (∀ s ∈ lastAxisSums a, s = 1)) :=
  ⟨rfl, c6_simplex_sample_shape_and_sums [2, 3] 3 rfl (by decide) 0 ⟨0⟩⟩

/-- C8: `from_jsonable` after `to_jsonable` reproduces the numeric data of
every well-formed array sequence exactly (first conjunct), and reproduces the
arrays themselves, shapes included, whenever every dimension is positive
(second conjunct). -/
theorem c8_jsonable_round_trip (xs : List NDArray)
    (hwf : ∀ x ∈ xs, x.data.length = prodL x.shape) :
    (Simplex.from_jsonable (Simplex.to_jsonable xs)).map NDArray.data =
      xs.map NDArray.data ∧
    ((∀ x ∈ xs, ∀ n ∈ x.shape, 1 ≤ n) →
      Simplex.from_jsonable (Simplex.to_jsonable xs) = xs) := by
  constructor
  · simp only [Simplex.from_jsonable, Simplex.to_jsonable, List.map_map]
    refine List.map_congr_left ?_
    intro x hx
    simp only [Function.comp]
    exact flatJ_toNested x.shape x.data (hwf x hx)
  · intro hpos
    simp only [Simplex.from_jsonable, Simplex.to_jsonable, List.map_map]
    have hid : ∀ x ∈ xs,
        (⟨inferShape (toNested x.shape x.data),
          flatJ (toNested x.shape x.data)⟩ : NDArray) = x := by
      intro x hx
      have h1 := flatJ_toNested x.shape x.data (hwf x hx)
      have h2 := inferShape_toNested x.shape (hpos x hx) x.data (hwf x hx)
      cases x
      simp_all
    exact (List.map_congr_left fun x hx => hid x hx).trans (List.map_id xs)

/-- C8 witness: two concrete `(2,)`-shaped simplex members round-trip
exactly. -/
theorem c8_witness :
    (Simplex.from_jsonable (Simplex.to_jsonable xsC)).map NDArray.data =
      xsC.map NDArray.data ∧
      Simplex.from_jsonable (Simplex.to_jsonable xsC) = xsC :=
  ⟨(c8_jsonable_round_trip xsC (by decide)).1,
    (c8_jsonable_round_trip xsC (by decide)).2 (by decide)⟩
